import Mathlib

/-!
Verification development for `code2pdf.py`, a script that collects source
files from a project tree, syntax-highlights each line into inline markup,
and assembles a paginated document.

The Python source is shallowly embedded below: pure string manipulation is
translated to functions on `String`/`List Char`, the filesystem is an
explicit tree value, and the document is an explicit list of elements.
-/

namespace Code2PDF

/-! ### Python `str.replace`, modelled on character lists

`pyReplace s pat rep` replaces every non-overlapping occurrence of `pat`
in `s` by `rep`, scanning left to right, exactly as Python `str.replace`
does for a non-empty pattern. -/

def pyReplace (s pat rep : List Char) : List Char :=
  match s with
  | [] => []
  | c :: cs =>
    if pat.isPrefixOf (c :: cs) ∧ pat ≠ [] then
      rep ++ pyReplace (cs.drop (pat.length - 1)) pat rep
    else
      c :: pyReplace cs pat rep
termination_by s.length
decreasing_by
  · simp only [List.length_cons]
    have h1 : (cs.drop (pat.length - 1)).length ≤ cs.length := by
      rw [List.length_drop]; omega
    omega
  · simp [List.length_cons]

/-- Escaping applied to each token's literal text in `syntax_highlight_line`
(source lines 145-149): ampersand first, then the angle brackets, then
spaces to a non-breaking-space encoding. -/
def escape_value (v : String) : String :=
  String.mk (pyReplace (pyReplace (pyReplace (pyReplace v.data
    "&".data "&amp;".data)
    "<".data "&lt;".data)
    ">".data "&gt;".data)
    " ".data "&nbsp;".data)

/-- Per-character view of the 4-step escaping chain. -/
def escChar (c : Char) : List Char :=
  if c = '&' then "&amp;".data
  else if c = '<' then "&lt;".data
  else if c = '>' then "&gt;".data
  else if c = ' ' then "&nbsp;".data
  else [c]

/-- Reversal of the escaping: rewrite each escape sequence back to its
character, scanning left to right. -/
def unescape (s : List Char) : List Char :=
  match s with
  | [] => []
  | c :: cs =>
    if "&amp;".data.isPrefixOf (c :: cs) then '&' :: unescape (cs.drop 4)
    else if "&lt;".data.isPrefixOf (c :: cs) then '<' :: unescape (cs.drop 3)
    else if "&gt;".data.isPrefixOf (c :: cs) then '>' :: unescape (cs.drop 3)
    else if "&nbsp;".data.isPrefixOf (c :: cs) then ' ' :: unescape (cs.drop 5)
    else c :: unescape cs
termination_by s.length
decreasing_by
  all_goals simp only [List.length_cons]
  · have h1 := (List.drop_sublist 4 cs).length_le; omega
  · have h1 := (List.drop_sublist 3 cs).length_le; omega
  · have h1 := (List.drop_sublist 3 cs).length_le; omega
  · have h1 := (List.drop_sublist 5 cs).length_le; omega
  · omega

/-- Remove every markup tag span `<...>` from a character list: a literal
`<` starts a tag that extends to the next `>`; everything else is kept. -/
def strip_tags (s : List Char) : List Char :=
  match s with
  | [] => []
  | c :: cs =>
    if c = '<' then strip_tags ((cs.dropWhile (· ≠ '>')).drop 1)
    else c :: strip_tags cs
termination_by s.length
decreasing_by
  · simp only [List.length_cons]
    have h1 := ((cs.dropWhile (· ≠ '>')).drop_sublist 1).length_le
    have h2 := (cs.dropWhile_sublist (· ≠ '>')).length_le
    omega
  · simp [List.length_cons]

def unescapeStr (s : String) : String := String.mk (unescape s.data)

def stripTagsStr (s : String) : String := String.mk (strip_tags s.data)

/-! ### Token types and the color table

A pygments token type is a path in the token hierarchy (`Token.Keyword.Type`
is embedded as `["Keyword", "Type"]`; the root `Token` is `[]`).
`tok in parent` in pygments holds iff `parent` is an ancestor of (or equal
to) `tok`, i.e. iff the parent path is a prefix of the token path. -/

abbrev TokenType := List String

/-- The `token_colors` dict from `syntax_highlight_line` (source lines
112-128), as an insertion-ordered association list. -/
def token_colors : List (TokenType × String) :=
  [ (["Keyword"], "#0000FF"),
    (["Keyword", "Type"], "#0000FF"),
    (["Keyword", "Constant"], "#0000FF"),
    (["Comment"], "#008000"),
    (["Comment", "Single"], "#008000"),
    (["Comment", "Multiline"], "#008000"),
    (["Comment", "Preproc"], "#0000FF"),
    (["String"], "#A31515"),
    (["String", "Char"], "#A31515"),
    (["Number"], "#098658"),
    (["Name", "Class"], "#267F99"),
    (["Name", "Function"], "#795E26"),
    (["Name", "Builtin"], "#0000FF"),
    (["Operator"], "#000000"),
    (["Punctuation"], "#000000") ]

/-- `get_color` from the source (lines 130-137): exact dictionary lookup
with default black; if the looked-up color is black, scan the table in
insertion order and return the first entry whose key is an ancestor of
(or equal to) the token type. -/
def get_color (t : TokenType) : String :=
  let color := (token_colors.lookup t).getD "#000000"
  if color = "#000000" then
    match token_colors.find? (fun pc => pc.1.isPrefixOf t) with
    | some pc => pc.2
    | none => color
  else color

/-! ### Rendering a line -/

/-- A pygments `(token_type, token_value)` pair. -/
structure Fragment where
  category : TokenType
  value : String
deriving DecidableEq, Repr

/-- Concatenation of the literal texts of a fragment sequence. -/
def concatValues (ts : List Fragment) : String :=
  String.mk (ts.flatMap (fun f => f.value.data))

/-- One entry of `result_parts` (source line 152): the escaped token value
wrapped in a font tag carrying the token's color. -/
def render_fragment (f : Fragment) : String :=
  "<font color=\"" ++ get_color f.category ++ "\">" ++ escape_value f.value ++ "</font>"

/-- `''.join(result_parts)` (source line 154). -/
def highlighted_code (ts : List Fragment) : String :=
  String.join (ts.map render_fragment)

/-- Python `f"{n:4d}"` for a natural number: the decimal digits
right-aligned in a field of width 4, padded with spaces on the left
(wider if the number needs more than 4 digits). -/
def fmt4 (n : Nat) : String :=
  String.mk (List.replicate (4 - (toString n).length) ' ') ++ toString n

/-- `syntax_highlight_line` (source line 157), after the external lexer has
produced the fragment list for the line: the gray line-number prefix, two
spaces, then the joined styled fragments. -/
def syntax_highlight_line (ts : List Fragment) (line_num : Nat) : String :=
  "<font color=\"#808080\">" ++ fmt4 line_num ++ "</font>" ++ "  " ++ highlighted_code ts

/-! ### Python string comparison and `sorted`

Python compares strings lexicographically by code point; `sorted` is a
stable sort with respect to `<=`.  A stable sort on strings is determined
by its input multiset (equal elements are identical), so it is modelled by
insertion sort over an executable lexicographic comparator. -/

/-- Strict lexicographic order on character lists (by code point). -/
def lexLt : List Char → List Char → Bool
  | [], [] => false
  | [], _ :: _ => true
  | _ :: _, [] => false
  | a :: as, b :: bs => if a < b then true else if b < a then false else lexLt as bs

/-- Python `<=` on strings. -/
def strLe (a b : String) : Prop := lexLt a.data b.data = true ∨ a.data = b.data

instance : DecidableRel strLe := fun a b =>
  inferInstanceAs (Decidable (lexLt a.data b.data = true ∨ a.data = b.data))

theorem lexLt_trans : ∀ {a b c : List Char},
    lexLt a b = true → lexLt b c = true → lexLt a c = true
  | [], [], _, h1, _ => by simp [lexLt] at h1
  | [], _ :: _, [], _, h2 => by simp [lexLt] at h2
  | [], _ :: _, _ :: _, _, _ => rfl
  | _ :: _, [], _, h1, _ => by simp [lexLt] at h1
  | _ :: _, _ :: _, [], _, h2 => by simp [lexLt] at h2
  | a :: as, b :: bs, c :: cs, h1, h2 => by
    simp only [lexLt] at h1 h2 ⊢
    rcases lt_trichotomy a b with hab | rfl | hab
    · rcases lt_trichotomy b c with hbc | rfl | hbc
      · simp [lt_trans hab hbc]
      · simp [hab]
      · rw [if_neg (lt_asymm hbc), if_pos hbc] at h2; simp at h2
    · rw [if_neg (lt_irrefl a), if_neg (lt_irrefl a)] at h1
      rcases lt_trichotomy a c with hac | rfl | hac
      · simp [hac]
      · rw [if_neg (lt_irrefl a), if_neg (lt_irrefl a)] at h2 ⊢
        exact lexLt_trans h1 h2
      · rw [if_neg (lt_asymm hac), if_pos hac] at h2; simp at h2
    · rw [if_neg (lt_asymm hab), if_pos hab] at h1; simp at h1

theorem lexLt_total : ∀ (a b : List Char),
    lexLt a b = true ∨ a = b ∨ lexLt b a = true
  | [], [] => Or.inr (Or.inl rfl)
  | [], _ :: _ => Or.inl rfl
  | _ :: _, [] => Or.inr (Or.inr rfl)
  | a :: as, b :: bs => by
    simp only [lexLt]
    rcases lt_trichotomy a b with hab | hab | hab
    · simp [hab]
    · subst hab
      rcases lexLt_total as bs with h | h | h
      · simp [lt_irrefl, h]
      · subst h; simp [lt_irrefl]
      · simp [lt_irrefl, h]
    · simp [hab, lt_asymm hab]

instance : IsTrans String strLe where
  trans a b c h1 h2 := by
    rcases h1 with h1 | h1
    · rcases h2 with h2 | h2
      · exact Or.inl (lexLt_trans h1 h2)
      · exact Or.inl (h2 ▸ h1)
    · rcases h2 with h2 | h2
      · exact Or.inl (h1 ▸ h2)
      · exact Or.inr (h1.trans h2)

instance : IsTotal String strLe where
  total a b := by
    rcases lexLt_total a.data b.data with h | h | h
    · exact Or.inl (Or.inl h)
    · exact Or.inl (Or.inr h)
    · exact Or.inr (Or.inl h)

/-- Python `sorted` on a list of strings. -/
def pySorted (l : List String) : List String := l.insertionSort strLe

/-! ### Tokenizer model

The tokenization itself is performed by the external grammar engine
(pygments), which is not part of this repository. -/

/-- Modelled from the spec: the grammar engine resolved by the Lexer
Selector is external to this repository.  Per the spec, a grammar is "a
named set of lexical rules that splits a line of text into typed
fragments", and tokenizing a line must "produce an ordered sequence of
(category, literal-text) fragments covering the line exactly".  A grammar
is modelled as an assignment of a category to each character; tokenizing
groups maximal runs of equally-categorized characters into fragments. -/
def tokenize (g : Char → TokenType) : List Char → List Fragment
  | [] => []
  | c :: cs =>
    match tokenize g cs with
    | [] => [⟨g c, String.mk [c]⟩]
    | f :: fs =>
      if g c = f.category then ⟨f.category, String.mk (c :: f.value.data)⟩ :: fs
      else ⟨g c, String.mk [c]⟩ :: f :: fs

/-! ### The filesystem model and the file collectors -/

/-- A directory entry: a file, or a subdirectory with its own entries. -/
inductive Entry where
  | file (name : String)
  | dir (name : String) (children : List Entry)

def Entry.name : Entry → String
  | .file n => n
  | .dir n _ => n

/-- Names of the plain files among a directory's entries (`files` in
`os.walk`'s triple). -/
def filesOf : List Entry → List String
  | [] => []
  | .file n :: es => n :: filesOf es
  | .dir _ _ :: es => filesOf es

/-- Subdirectories among a directory's entries (`dirs` in `os.walk`'s
triple), with their contents. -/
def dirsOf : List Entry → List (String × List Entry)
  | [] => []
  | .file _ :: es => dirsOf es
  | .dir n cs :: es => (n, cs) :: dirsOf es

/-- The `excluded_dirs` set (source line 28). -/
def excluded_dirs : List String :=
  ["node_modules", ".git", "dist", "build", ".next", "coverage", ".vscode", ".idea", "__pycache__"]

/-- The `excluded_files` set (source line 29). -/
def excluded_files : List String :=
  ["package-lock.json", "main.css", "output.css", "styles.css"]

/-- The `file_extensions` set (source line 30). -/
def file_extensions : List String :=
  [".js", ".ejs", ".json", ".ts", ".jsx", ".tsx", ".css", ".html", ".sql"]

/-- Suffix of a character list starting at its last `.` (inclusive), if
any. -/
def lastDotSuffix : List Char → Option (List Char)
  | [] => none
  | c :: cs =>
    match lastDotSuffix cs with
    | some e => some e
    | none => if c = '.' then some (c :: cs) else none

/-- `os.path.splitext(name)[1]`: the extension starts at the last dot,
except that leading dots of the name do not begin an extension
(`.bashrc` has no extension). -/
def extOf (name : String) : String :=
  match lastDotSuffix (name.data.dropWhile (· = '.')) with
  | some e => String.mk e
  | none => ""

/-- Whether a file survives the two per-file filters of
`get_nodejs_files` (source lines 40-46): not in the file denylist, and
with an allow-listed extension. -/
def admitFile (name : String) : Bool :=
  decide (name ∉ excluded_files) && decide (extOf name ∈ file_extensions)

/-- `os.path.join` for one component, assuming the base has no trailing
slash. -/
def joinOne (path name : String) : String := path ++ "/" ++ name

theorem sizeOf_dirsOf_lt {d : String × List Entry} :
    ∀ {es : List Entry}, d ∈ dirsOf es → sizeOf d.2 < sizeOf es := by
  intro es h
  induction es with
  | nil => simp [dirsOf] at h
  | cons e es ih =>
    cases e with
    | file n =>
      simp only [dirsOf] at h
      have := ih h
      simp only [List.cons.sizeOf_spec]
      omega
    | dir n cs =>
      simp only [dirsOf, List.mem_cons] at h
      rcases h with h | h
      · subst h
        simp only [List.cons.sizeOf_spec, Entry.dir.sizeOf_spec]
        omega
      · have := ih h
        simp only [List.cons.sizeOf_spec, Entry.dir.sizeOf_spec]
        omega

/-- The `os.walk` loop of `get_nodejs_files` (source lines 34-47): at each
directory, the sorted file names are filtered and appended as full paths,
and the walk recurses into the subdirectories that are not in
`excluded_dirs`. -/
def walkCollect (path : String) (es : List Entry) : List String :=
  ((pySorted (filesOf es)).filter admitFile).map (joinOne path) ++
    (dirsOf es).attach.flatMap
      (fun d =>
        if d.1.1 ∈ excluded_dirs then []
        else walkCollect (joinOne path d.1.1) d.1.2)
termination_by sizeOf es
decreasing_by
  exact sizeOf_dirsOf_lt d.2

/-- `get_nodejs_files` (source lines 26-49): the walk's results, globally
re-sorted by full path. -/
def get_nodejs_files (base_path : String) (es : List Entry) : List String :=
  pySorted (walkCollect base_path es)

/-! ### The fixed-layout (cpp) collector -/

/-- The two root subdirectories consulted by `get_cpp_files`, as seen by
`os.path.exists` plus a directory listing: `none` when no entry of that
name exists at the root, `some names` with the entry names inside it
otherwise (a plain file of that name yields `some []`, since globbing
inside it finds nothing). -/
structure CppRoot where
  srcListing : Option (List String)
  includeListing : Option (List String)

/-- `glob.glob` name matching for a pattern `*suffix`: `*` matches any
name that does not start with a dot, and the name must end with the
pattern's literal suffix. -/
def globMatch (suffix name : String) : Bool :=
  !(['.'].isPrefixOf name.data) && suffix.data.reverse.isPrefixOf name.data.reverse

/-- `sorted(glob.glob(os.path.join(base, sub, pattern)))` (source lines
59 and 65): the matching names as full paths, sorted. -/
def globSorted (base sub suffix : String) : Option (List String) → List String
  | none => []
  | some names => pySorted ((names.filter (globMatch suffix)).map (joinOne (joinOne base sub)))

/-- The `.h` files collected from `include/` (source lines 63-66). -/
def hFilesOf (base : String) (r : CppRoot) : List String :=
  globSorted base "include" ".h" r.includeListing

/-- The `.cpp` files collected from `src/` (source lines 57-60). -/
def cppFilesOf (base : String) (r : CppRoot) : List String :=
  globSorted base "src" ".cpp" r.srcListing

/-- `get_cpp_files` (source lines 51-69): headers first, then sources. -/
def get_cpp_files (base : String) (r : CppRoot) : List String :=
  hFilesOf base r ++ cppFilesOf base r

/-- The names of all entries in a directory. -/
def entryNames (es : List Entry) : List String := es.map Entry.name

/-- The listing of a root subdirectory as `get_cpp_files` sees it. -/
def subdirListing (es : List Entry) (name : String) : Option (List String) :=
  if (entryNames es).contains name then
    some ((((dirsOf es).find? (fun d => d.1 == name)).map
      (fun d => entryNames d.2)).getD [])
  else none

def cppRootOf (es : List Entry) : CppRoot :=
  ⟨subdirListing es "src", subdirListing es "include"⟩

/-! ### The project classifier -/

/-- `os.path.exists(os.path.join(base_path, name))`: some entry of that
name (file or directory) exists at the root. -/
def existsEntry (es : List Entry) (name : String) : Bool :=
  (entryNames es).contains name

/-- `detect_project_type` (source lines 18-24). -/
def detect_project_type (es : List Entry) : String :=
  if existsEntry es "package.json" then "nodejs"
  else if existsEntry es "include" || existsEntry es "src" then "cpp"
  else "generic"

/-- A plain file of the given name exists at the root. -/
def hasFileNamed (es : List Entry) (n : String) : Bool :=
  es.any fun e =>
    match e with
    | .file m => m == n
    | .dir _ _ => false

/-- A subdirectory of the given name exists at the root. -/
def hasDirNamed (es : List Entry) (n : String) : Bool :=
  es.any fun e =>
    match e with
    | .file _ => false
    | .dir m _ => m == n

/-- The classifier as the claim words it: a recognized manifest *file* at
the root gives the first tag; otherwise one of the two conventional
*subdirectories* gives the second tag; otherwise the fallback tag. -/
def detect_project_type_claim (es : List Entry) : String :=
  if hasFileNamed es "package.json" then "nodejs"
  else if hasDirNamed es "include" || hasDirNamed es "src" then "cpp"
  else "generic"

/-- The amended classifier: any entry (file or directory) of the marker
name counts, matching `os.path.exists`. -/
def detect_project_type_amended (es : List Entry) : String :=
  if hasFileNamed es "package.json" || hasDirNamed es "package.json" then "nodejs"
  else if (hasFileNamed es "include" || hasDirNamed es "include") ||
          (hasFileNamed es "src" || hasDirNamed es "src") then "cpp"
  else "generic"

/-- `get_code_files` (source lines 71-81). -/
def get_code_files (base : String) (es : List Entry) (project_type : String) : List String :=
  if project_type = "nodejs" then get_nodejs_files base es
  else if project_type = "cpp" then get_cpp_files base (cppRootOf es)
  else get_nodejs_files base es

/-! ### The document model -/

/-- A flowable appended to the `elements` list: a styled paragraph, a
spacer, or a page break. -/
inductive Elem where
  | para (style : String) (text : String)
  | spacer
  | pageBreak
deriving DecidableEq, Repr

/-- `os.path.basename`. -/
def basename (p : String) : String :=
  String.mk ((p.data.reverse.takeWhile (· ≠ '/')).reverse)

/-- `os.path.relpath(p, base)` for a path `p` lying under `base`: the part
after `base` and its separator. -/
def relpath (base p : String) : String :=
  String.mk (p.data.drop (base.data.length + 1))

/-- `os.path.dirname`. -/
def dirnameStr (p : String) : String :=
  if p.data.contains '/' then
    String.mk (((p.data.reverse.dropWhile (· ≠ '/')).reverse).dropLast)
  else ""

/-- The directory label a file is grouped under in the table of contents
(source lines 249-251): the directory part of the relative path, with `.`
for the root. -/
def relDir (base p : String) : String :=
  let rd := dirnameStr (relpath base p)
  if rd = "" then "." else rd

/-- `dir_files[relative_dir].append((file_index, filename))` on a
`defaultdict(list)` kept as an insertion-ordered association list. -/
def addToGroup (gs : List (String × List (Nat × String))) (d : String) (pr : Nat × String) :
    List (String × List (Nat × String)) :=
  match gs with
  | [] => [(d, [pr])]
  | g :: rest => if g.1 = d then (g.1, g.2 ++ [pr]) :: rest else g :: addToGroup rest d pr

/-- The grouping loop of `create_pdf` (source lines 245-253), carrying the
running `file_index`. -/
def buildGroups (base : String) (gs : List (String × List (Nat × String))) (i : Nat) :
    List String → List (String × List (Nat × String))
  | [] => gs
  | p :: ps => buildGroups base (addToGroup gs (relDir base p) (i, basename p)) (i + 1) ps

/-- The `dir_files` mapping of `create_pdf`. -/
def dir_files (base : String) (files : List String) : List (String × List (Nat × String)) :=
  buildGroups base [] 1 files

/-- The table-of-contents block for one directory group (source lines
275-281). -/
def tocGroupElems (g : String × List (Nat × String)) : List Elem :=
  Elem.para "TOCDir" (g.1 ++ "/") ::
    (g.2.enum.map (fun kpr =>
      Elem.para "TOCFile"
        ((if kpr.1 = g.2.length - 1 then "`--" else "|--") ++ " " ++
          toString kpr.2.1 ++ ". " ++ kpr.2.2)) ++ [Elem.spacer])

/-- The table-of-contents elements (source lines 238-281): title, spacer,
then the groups in sorted order of directory label. -/
def tocElems (base project_name : String) (files : List String) : List Elem :=
  Elem.para "CustomTitle" ("Table of Contents - " ++ project_name) :: Elem.spacer ::
    (pySorted ((dir_files base files).map Prod.fst)).flatMap (fun dn =>
      (((dir_files base files).find? (fun g => g.1 == dn)).map tocGroupElems).getD [])

/-- Python `line.rstrip('\n')` (source line 308). -/
def rstripNewlines (s : String) : String :=
  String.mk ((s.data.reverse.dropWhile (· = '\n')).reverse)

/-- The per-line rendering loop (source lines 306-314), with the line
number starting at `i`. -/
def renderLines (g : Char → TokenType) (i : Nat) : List String → List Elem
  | [] => []
  | l :: ls =>
    Elem.para "CodeStyle" (syntax_highlight_line (tokenize g (rstripNewlines l).data) i) ::
      renderLines g (i + 1) ls

/-- The document section emitted for one file (source lines 286-321):
header, italic relative path, spacer, then the rendered lines (or the
error paragraph when the file cannot be read), then a page break unless
this is the last file. -/
def fileSection (g : Char → TokenType) (base : String) (i n : Nat) (p : String)
    (content : Except String (List String)) : List Elem :=
  Elem.para "FileHeader" (toString i ++ ". " ++ basename p) ::
    Elem.para "Italic" ("<i>Path: " ++ relpath base p ++ "</i>") ::
    Elem.spacer ::
    ((match content with
      | .ok ls => renderLines g 1 ls
      | .error m => [Elem.para "Normal" ("Error reading file: " ++ m)]) ++
      (if i < n then [Elem.pageBreak] else []))

/-- The environment a run sees: whether the resolved root exists, its
path, its tree, the per-file read outcome (the lines read, or the caught
exception's message), and the grammar selected per file. -/
structure World where
  pathExists : Bool
  base : String
  root : List Entry
  readFile : String → Except String (List String)
  grammarOf : String → Char → TokenType

/-- The per-file loop of `create_pdf` (source lines 286-321), starting at
index `i` with `n` files in total. -/
def sectionsFrom (w : World) (n i : Nat) : List String → List Elem
  | [] => []
  | p :: ps =>
    fileSection (w.grammarOf p) w.base i n p (w.readFile p) ++ sectionsFrom w n (i + 1) ps

/-- The full element stream handed to the layout engine. -/
def docBody (w : World) (files : List String) : List Elem :=
  tocElems w.base (basename w.base) files ++ [Elem.pageBreak] ++
    sectionsFrom w files.length 1 files

/-- The observable outcome of a run: an early return with a printed
message (no document), or a built document. -/
inductive RunResult where
  | pathError (msg : String)
  | noFiles (msg : String)
  | document (elems : List Elem)
deriving DecidableEq, Repr

/-- Whether a run wrote an output file: only a built document is handed
to `doc.build`. -/
def writesOutput : RunResult → Bool
  | .document _ => true
  | _ => false

/-- `create_pdf` (source lines 159-326) up to the hand-off to the layout
engine. -/
def create_pdf (w : World) : RunResult :=
  if w.pathExists = false then
    .pathError ("Error: Path \x27" ++ w.base ++ "\x27 does not exist!")
  else
    let files := get_code_files w.base w.root (detect_project_type w.root)
    if files = [] then .noFiles "No code files found!"
    else .document (docBody w files)

/-! ### Claim-side color lookup definitions -/

/-- The proper prefixes of a token type, longest (nearest ancestor)
first. -/
def properPrefixes (t : TokenType) : List TokenType :=
  (List.range t.length).reverse.map (fun k => t.take k)

/-- The color lookup as the claim words it: the exact entry if present,
otherwise the color of the *nearest* ancestor category present in the
table, otherwise black. -/
def get_color_claim (t : TokenType) : String :=
  match token_colors.lookup t with
  | some c => c
  | none =>
    match (properPrefixes t).findSome? (fun p => token_colors.lookup p) with
    | some c => c
    | none => "#000000"

/-- The amended color lookup: the exact entry if present, otherwise the
color of the *first entry in the table's insertion order* whose category
is an ancestor of the given category, otherwise black. -/
def get_color_amended (t : TokenType) : String :=
  match token_colors.lookup t with
  | some c => c
  | none =>
    match token_colors.find? (fun pc => pc.1.isPrefixOf t) with
    | some pc => pc.2
    | none => "#000000"

/-! ### Observers used to state the document-structure claims -/

/-- A document element that opens a file section: a paragraph in the
file-header style. -/
def isHeading : Elem → Bool
  | .para s _ => s == "FileHeader"
  | _ => false

/-- The `(ordinal index, display name)` pairs the assembler associates with
the files, counting from `i`. -/
def indexFrom (i : Nat) : List String → List (Nat × String)
  | [] => []
  | p :: ps => (i, basename p) :: indexFrom (i + 1) ps

/-- The section-heading paragraph for an indexed file. -/
def headingOf (pr : Nat × String) : Elem :=
  Elem.para "FileHeader" (toString pr.1 ++ ". " ++ pr.2)

/-- A file `f` is reachable from a directory's entries by following the
subdirectories named in `ds` in order. -/
inductive PathTo : List Entry → List String → String → Prop where
  | here {es : List Entry} {f : String} : Entry.file f ∈ es → PathTo es [] f
  | there {es : List Entry} {d : String} {cs : List Entry} {ds : List String} {f : String} :
      Entry.dir d cs ∈ es → PathTo cs ds f → PathTo es (d :: ds) f

/-- The full path of a file reached through the subdirectories `ds`. -/
def joinPath (base : String) (ds : List String) (f : String) : String :=
  joinOne (ds.foldl joinOne base) f

/-! ## Theorems -/

theorem existsEntry_eq (es : List Entry) (n : String) :
    existsEntry es n = (hasFileNamed es n || hasDirNamed es n) := by
  induction es with
  | nil => rfl
  | cons e es ih =>
    cases e with
    | file m =>
      have h1 : existsEntry (Entry.file m :: es) n = (n == m || existsEntry es n) := by
        simp only [existsEntry, entryNames, List.map_cons, List.contains_cons, Entry.name]
      have h2 : hasFileNamed (Entry.file m :: es) n = (m == n || hasFileNamed es n) := by
        simp [hasFileNamed, List.any_cons]
      have h3 : hasDirNamed (Entry.file m :: es) n = hasDirNamed es n := by
        simp [hasDirNamed, List.any_cons]
      rw [h1, h2, h3, ih, Bool.beq_comm]
      cases m == n <;> cases hasFileNamed es n <;> cases hasDirNamed es n <;> rfl
    | dir m cs =>
      have h1 : existsEntry (Entry.dir m cs :: es) n = (n == m || existsEntry es n) := by
        simp only [existsEntry, entryNames, List.map_cons, List.contains_cons, Entry.name]
      have h2 : hasFileNamed (Entry.dir m cs :: es) n = hasFileNamed es n := by
        simp [hasFileNamed, List.any_cons]
      have h3 : hasDirNamed (Entry.dir m cs :: es) n = (m == n || hasDirNamed es n) := by
        simp [hasDirNamed, List.any_cons]
      rw [h1, h2, h3, ih, Bool.beq_comm]
      cases m == n <;> cases hasFileNamed es n <;> cases hasDirNamed es n <;> rfl

/-- C9 counterexample: a root containing a plain *file* named `src` (and
no subdirectory) is classified `cpp` by the code, while the claim's
decision policy, which requires a conventional *subdirectory*, would fall
through to the generic tag. -/
theorem c9_counterexample :
    detect_project_type [Entry.file "src"] = "cpp" ∧
      detect_project_type_claim [Entry.file "src"] = "generic" ∧
      detect_project_type [Entry.file "src"] ≠ detect_project_type_claim [Entry.file "src"] := by
  refine ⟨rfl, rfl, ?_⟩
  decide

/-- C9 (amended): the classifier returns exactly one of the three tags by
a first-match-wins policy, where each marker test is satisfied by *any*
filesystem entry of the marker name (file or directory), matching
`os.path.exists`; absence of all markers yields the fallback tag, never a
failure. -/
theorem c9_detect_project_type (es : List Entry) :
    detect_project_type es = detect_project_type_amended es ∧
      (detect_project_type es = "nodejs" ∨ detect_project_type es = "cpp" ∨
        detect_project_type es = "generic") := by
  constructor
  · simp only [detect_project_type, detect_project_type_amended, existsEntry_eq]
  · simp only [detect_project_type]
    split
    · exact Or.inl rfl
    · split
      · exact Or.inr (Or.inl rfl)
      · exact Or.inr (Or.inr rfl)

/-- C5 counterexample: for the category `Comment.Preproc.X`, the nearest
ancestor present in the table is `Comment.Preproc` (blue `#0000FF`), but
the code scans the table in insertion order and returns the color of
`Comment` (green `#008000`), the first ancestor it meets. -/
theorem c5_counterexample :
    get_color ["Comment", "Preproc", "X"] = "#008000" ∧
      get_color_claim ["Comment", "Preproc", "X"] = "#0000FF" ∧
      get_color ["Comment", "Preproc", "X"] ≠
        get_color_claim ["Comment", "Preproc", "X"] := by
  refine ⟨?_, ?_, ?_⟩ <;> decide

/-- C5 (amended): the color lookup returns the table entry for the exact
category if one exists; otherwise the color of the first entry in the
table's insertion order whose category is an ancestor of the category;
otherwise the default black. -/
theorem c5_get_color (t : TokenType) : get_color t = get_color_amended t := by
  rcases h : token_colors.lookup t with _ | c
  · simp only [get_color, get_color_amended, h, Option.getD_none, if_pos]
  · have hmem : (t, c) ∈ token_colors := by
      rw [List.lookup_eq_some_iff] at h
      obtain ⟨l₁, l₂, hl, -⟩ := h
      rw [hl]
      exact List.mem_append_right _ (List.mem_cons_self _ _)
    simp only [token_colors, List.mem_cons, List.not_mem_nil, or_false] at hmem
    rcases hmem with h' | h' | h' | h' | h' | h' | h' | h' | h' | h' | h' | h' | h' | h' | h' <;>
      (rcases h' with ⟨rfl, rfl⟩; decide)

/-- C8 counterexample: at line number 10000 the numeric field of the
rendered line is 5 characters wide, not the claimed fixed width of 4
(Python's width specifier is a minimum, not a fixed width). -/
theorem c8_counterexample :
    syntax_highlight_line [] 10000 =
      "<font color=\"#808080\">" ++ fmt4 10000 ++ "</font>" ++ "  " ++ highlighted_code [] ∧
      (fmt4 10000).length = 5 ∧ (fmt4 10000).length ≠ 4 := by
  refine ⟨rfl, ?_, ?_⟩ <;> decide

/-- C8 (amended): the rendered line is the line number right-aligned in a
muted-gray styled field — spaces on the left, the decimal digits on the
right, the field 4 characters wide whenever the number has at most 4
digits (and as wide as the digits otherwise) — followed by two spaces and
the concatenated styled fragments; the rendered line is never empty. -/
theorem c8_syntax_highlight_line (ts : List Fragment) (n : Nat) :
    syntax_highlight_line ts n =
      "<font color=\"#808080\">" ++ fmt4 n ++ "</font>" ++ "  " ++ highlighted_code ts ∧
      (fmt4 n).data = List.replicate (4 - (toString n).length) ' ' ++ (toString n).data ∧
      (fmt4 n).length = max 4 (toString n).length ∧
      ((toString n).length ≤ 4 → (fmt4 n).length = 4) ∧
      syntax_highlight_line ts n ≠ "" := by
  have hlen : (fmt4 n).length = max 4 (toString n).length := by
    simp only [fmt4, String.length_append]
    have : (String.mk (List.replicate (4 - (toString n).length) ' ')).length =
        4 - (toString n).length := by
      show (List.replicate (4 - (toString n).length) ' ').length = _
      rw [List.length_replicate]
    omega
  refine ⟨rfl, ?_, hlen, fun h => by omega, ?_⟩
  · simp [fmt4, String.data_append]
  · intro h
    have h2 := congrArg String.length h
    rw [syntax_highlight_line] at h2
    simp only [String.length_append] at h2
    have h3 : ("<font color=\"#808080\">" : String).length = 22 := rfl
    have h4 : ("" : String).length = 0 := rfl
    omega

/-- Witness for the amended C8 at a concrete line: a one-digit line
number is padded to the 4-character field. -/
theorem c8_syntax_highlight_line_witness : (fmt4 7).length = 4 :=
  (c8_syntax_highlight_line [] 7).2.2.2.1 (by decide)

/-- C4: the fixed-layout collector returns the sorted `.h` paths from
`include/` followed by the sorted `.cpp` paths from `src/`; a missing
subdirectory contributes nothing; membership in each part is exactly the
glob of the respective listing; and on the concrete root with headers
`b.h`, `a.h` and source `x.cpp` the collected order is
`[include/a.h, include/b.h, src/x.cpp]`. -/
theorem c4_get_cpp_files (base : String) (r : CppRoot) :
    get_cpp_files base r = hFilesOf base r ++ cppFilesOf base r ∧
      List.Sorted strLe (hFilesOf base r) ∧
      List.Sorted strLe (cppFilesOf base r) ∧
      (r.includeListing = none → hFilesOf base r = []) ∧
      (r.srcListing = none → cppFilesOf base r = []) ∧
      (∀ p, p ∈ hFilesOf base r ↔ ∃ l, r.includeListing = some l ∧
        ∃ name ∈ l, globMatch ".h" name = true ∧ p = joinOne (joinOne base "include") name) ∧
      (∀ p, p ∈ cppFilesOf base r ↔ ∃ l, r.srcListing = some l ∧
        ∃ name ∈ l, globMatch ".cpp" name = true ∧ p = joinOne (joinOne base "src") name) ∧
      get_cpp_files "/r" ⟨some ["x.cpp"], some ["b.h", "a.h"]⟩ =
        ["/r/include/a.h", "/r/include/b.h", "/r/src/x.cpp"] := by
  refine ⟨rfl, ?_, ?_, ?_, ?_, ?_, ?_, by decide⟩
  · rcases hr : r.includeListing with _ | l
    · simp [hFilesOf, globSorted, hr, List.Sorted]
    · simp only [hFilesOf, globSorted, hr, pySorted]
      exact List.sorted_insertionSort strLe _
  · rcases hr : r.srcListing with _ | l
    · simp [cppFilesOf, globSorted, hr, List.Sorted]
    · simp only [cppFilesOf, globSorted, hr, pySorted]
      exact List.sorted_insertionSort strLe _
  · intro h; simp [hFilesOf, globSorted, h]
  · intro h; simp [cppFilesOf, globSorted, h]
  · intro p
    rcases hr : r.includeListing with _ | l
    · simp [hFilesOf, globSorted, hr]
    · simp only [hFilesOf, globSorted, hr, pySorted, List.mem_insertionSort,
        List.mem_map, List.mem_filter, Option.some.injEq]
      constructor
      · rintro ⟨name, ⟨hmem, hglob⟩, rfl⟩
        exact ⟨l, rfl, name, hmem, hglob, rfl⟩
      · rintro ⟨l', hl', name, hmem, hglob, rfl⟩
        cases hl'
        exact ⟨name, ⟨hmem, hglob⟩, rfl⟩
  · intro p
    rcases hr : r.srcListing with _ | l
    · simp [cppFilesOf, globSorted, hr]
    · simp only [cppFilesOf, globSorted, hr, pySorted, List.mem_insertionSort,
        List.mem_map, List.mem_filter, Option.some.injEq]
      constructor
      · rintro ⟨name, ⟨hmem, hglob⟩, rfl⟩
        exact ⟨l, rfl, name, hmem, hglob, rfl⟩
      · rintro ⟨l', hl', name, hmem, hglob, rfl⟩
        cases hl'
        exact ⟨name, ⟨hmem, hglob⟩, rfl⟩

/-- Witness for C4 at a concrete root: with no `include/` entry the header
part is empty. -/
theorem c4_get_cpp_files_witness :
    hFilesOf "/r" ⟨some ["x.cpp"], none⟩ = [] :=
  (c4_get_cpp_files "/r" ⟨some ["x.cpp"], none⟩).2.2.2.1 rfl

/-- C7: a nonexistent resolved root fails the run with the condition
reported and no output written; an existing root with zero collected
files aborts with the informational message and no output written. -/
theorem c7_create_pdf (w : World) :
    (w.pathExists = false →
      create_pdf w = RunResult.pathError
        ("Error: Path \x27" ++ w.base ++ "\x27 does not exist!") ∧
      writesOutput (create_pdf w) = false) ∧
    (w.pathExists = true →
      get_code_files w.base w.root (detect_project_type w.root) = [] →
      create_pdf w = RunResult.noFiles "No code files found!" ∧
      writesOutput (create_pdf w) = false) := by
  constructor
  · intro h
    simp [create_pdf, h, writesOutput]
  · intro h hf
    simp [create_pdf, h, hf, writesOutput]

/-- Witness for C7 on two concrete runs: one with a nonexistent root, one
with an existing but empty root. -/
theorem c7_create_pdf_witness :
    create_pdf ⟨false, "/p", [], fun _ => Except.error "e", fun _ _ => []⟩ =
      RunResult.pathError "Error: Path \x27/p\x27 does not exist!" ∧
    create_pdf ⟨true, "/p", [], fun _ => Except.error "e", fun _ _ => []⟩ =
      RunResult.noFiles "No code files found!" := by
  constructor
  · exact ((c7_create_pdf _).1 rfl).1
  · refine ((c7_create_pdf _).2 rfl ?_).1
    show get_code_files "/p" [] "generic" = []
    have h1 : walkCollect "/p" [] = [] := by
      rw [walkCollect]
      rfl
    rw [get_code_files, if_neg (by decide), if_neg (by decide), get_nodejs_files, h1]
    rfl

theorem tokenize_flatMap (g : Char → TokenType) :
    ∀ cs : List Char, (tokenize g cs).flatMap (fun f => f.value.data) = cs := by
  intro cs
  induction cs with
  | nil => rfl
  | cons c cs ih =>
    simp only [tokenize]
    cases h : tokenize g cs with
    | nil =>
      rw [h] at ih
      simp only [List.flatMap_nil] at ih
      simp [← ih, List.flatMap_cons]
    | cons f fs =>
      rw [h] at ih
      by_cases hc : g c = f.category
      · simp only [hc, if_pos rfl]
        rw [← ih]
        simp [List.flatMap_cons]
      · simp only [if_neg hc]
        rw [← ih]
        simp [List.flatMap_cons]

/-- C2: for every line and every grammar, the concatenation of the
literal-text parts of the fragments produced by tokenizing the line
reproduces the line exactly. -/
theorem c2_tokenize_lossless (g : Char → TokenType) (L : String) :
    concatValues (tokenize g L.data) = L := by
  rw [concatValues, tokenize_flatMap]

theorem filter_isHeading_renderLines (g : Char → TokenType) :
    ∀ (ls : List String) (i : Nat), (renderLines g i ls).filter isHeading = [] := by
  intro ls
  induction ls with
  | nil => intro i; rfl
  | cons l ls ih =>
    intro i
    simp only [renderLines, List.filter_cons, ih]
    rfl

theorem pageBreak_notMem_renderLines (g : Char → TokenType) :
    ∀ (ls : List String) (i : Nat), Elem.pageBreak ∉ renderLines g i ls := by
  intro ls
  induction ls with
  | nil => intro i h; simp [renderLines] at h
  | cons l ls ih =>
    intro i h
    simp only [renderLines, List.mem_cons] at h
    rcases h with h | h
    · cases h
    · exact ih (i + 1) h

theorem filter_isHeading_fileSection (g : Char → TokenType) (base : String) (i n : Nat)
    (p : String) (c : Except String (List String)) :
    (fileSection g base i n p c).filter isHeading = [headingOf (i, basename p)] := by
  simp only [fileSection, List.filter_cons, List.filter_append]
  have hb : (match c with
      | .ok ls => renderLines g 1 ls
      | .error m => [Elem.para "Normal" ("Error reading file: " ++ m)]).filter isHeading = [] := by
    cases c with
    | ok ls => exact filter_isHeading_renderLines g ls 1
    | error m => rfl
  have hbr : (if i < n then [Elem.pageBreak] else []).filter isHeading = [] := by
    split <;> rfl
  rw [hb, hbr]
  rfl

theorem filter_isHeading_sectionsFrom (w : World) (n : Nat) :
    ∀ (ps : List String) (i : Nat),
      (sectionsFrom w n i ps).filter isHeading = (indexFrom i ps).map headingOf := by
  intro ps
  induction ps with
  | nil => intro i; rfl
  | cons p ps ih =>
    intro i
    simp only [sectionsFrom, List.filter_append, filter_isHeading_fileSection, indexFrom,
      List.map_cons, ih]
    rfl

theorem isHeading_tocGroupElems (g : String × List (Nat × String)) :
    ∀ e ∈ tocGroupElems g, isHeading e = false := by
  intro e he
  simp only [tocGroupElems, List.mem_cons, List.mem_append, List.mem_map] at he
  rcases he with rfl | (⟨kpr, _, rfl⟩ | h)
  · rfl
  · rfl
  · have hs : e = Elem.spacer := by simpa using h
    subst hs
    rfl

theorem filter_isHeading_tocElems (base pn : String) (files : List String) :
    (tocElems base pn files).filter isHeading = [] := by
  rw [List.filter_eq_nil_iff]
  intro e he
  simp only [tocElems, List.mem_cons, List.mem_flatMap] at he
  rcases he with rfl | (rfl | ⟨dn, _, he⟩)
  · intro hh; cases hh
  · intro hh; cases hh
  · rcases hf : (dir_files base files).find? (fun g => g.1 == dn) with _ | g
    · rw [hf] at he
      simp at he
    · rw [hf] at he
      have he2 : e ∈ tocGroupElems g := by simpa using he
      intro hh
      rw [isHeading_tocGroupElems g e he2] at hh
      cases hh

theorem countP_pageBreak_fileSection (g : Char → TokenType) (base : String) (i n : Nat)
    (p : String) (c : Except String (List String)) :
    (fileSection g base i n p c).countP (fun e => e == Elem.pageBreak) =
      if i < n then 1 else 0 := by
  simp only [fileSection, List.countP_cons, List.countP_append]
  have hb : (match c with
      | .ok ls => renderLines g 1 ls
      | .error m => [Elem.para "Normal" ("Error reading file: " ++ m)]).countP
        (fun e => e == Elem.pageBreak) = 0 := by
    cases c with
    | ok ls =>
      rw [List.countP_eq_zero]
      intro e he
      have h1 : ∀ (ls : List String) (j : Nat), ∀ e ∈ renderLines g j ls,
          (e == Elem.pageBreak) = false := by
        intro ls
        induction ls with
        | nil => intro j e h; simp [renderLines] at h
        | cons l ls ih =>
          intro j e h
          simp only [renderLines, List.mem_cons] at h
          rcases h with rfl | h
          · rfl
          · exact ih (j + 1) e h
      simp [h1 ls 1 e he]
    | error m => rfl
  have hbr : (if i < n then [Elem.pageBreak] else []).countP
      (fun e => e == Elem.pageBreak) = if i < n then 1 else 0 := by
    split <;> rfl
  rw [hb, hbr]
  simp [List.countP_nil]

theorem countP_pageBreak_sectionsFrom (w : World) (n : Nat) :
    ∀ (ps : List String) (i : Nat), i + ps.length = n + 1 →
      (sectionsFrom w n i ps).countP (fun e => e == Elem.pageBreak) = ps.length - 1 := by
  intro ps
  induction ps with
  | nil => intro i _; rfl
  | cons p ps ih =>
    intro i hlen
    simp only [List.length_cons] at hlen
    simp only [sectionsFrom, List.countP_append, countP_pageBreak_fileSection,
      ih (i + 1) (by omega), List.length_cons]
    split
    · next h => omega
    · next h =>
      have hz : ps.length = 0 := by omega
      omega

/-- C6: the document contains exactly one section heading per collected
file, in collector order with matching names; a file whose read fails
still yields exactly one section, containing the visible error paragraph;
every section carries the italic relative-path paragraph; each section
ends with a page break except the last, and the per-file part of the
document contains exactly one page break per file but the last. -/
theorem c6_document_sections (w : World) (files : List String) :
    (docBody w files).filter isHeading = (indexFrom 1 files).map headingOf ∧
      ((docBody w files).filter isHeading).length = files.length ∧
      (∀ g base i n p m,
        (fileSection g base i n p (Except.error m)).filter isHeading =
            [headingOf (i, basename p)] ∧
          Elem.para "Normal" ("Error reading file: " ++ m) ∈
            fileSection g base i n p (Except.error m)) ∧
      (∀ g base i n p c,
        Elem.para "Italic" ("<i>Path: " ++ relpath base p ++ "</i>") ∈
          fileSection g base i n p c) ∧
      (∀ g base i n p c, i < n →
        (fileSection g base i n p c).getLast? = some Elem.pageBreak) ∧
      (∀ g base i n p c, ¬ i < n → Elem.pageBreak ∉ fileSection g base i n p c) ∧
      (sectionsFrom w files.length 1 files).countP (fun e => e == Elem.pageBreak) =
        files.length - 1 := by
  have hlen : ∀ (l : List String) (i : Nat), (indexFrom i l).length = l.length := by
    intro l
    induction l with
    | nil => intro i; rfl
    | cons p ps ih => intro i; simp [indexFrom, ih]
  refine ⟨?_, ?_, ?_, ?_, ?_, ?_, ?_⟩
  · simp only [docBody, List.filter_append, filter_isHeading_tocElems,
      filter_isHeading_sectionsFrom]
    rfl
  · simp only [docBody, List.filter_append, filter_isHeading_tocElems,
      filter_isHeading_sectionsFrom]
    simp [hlen, show isHeading Elem.pageBreak = false from rfl]
  · intro g base i n p m
    exact ⟨filter_isHeading_fileSection g base i n p (.error m), by simp [fileSection]⟩
  · intro g base i n p c
    simp [fileSection]
  · intro g base i n p c hin
    simp only [fileSection, if_pos hin]
    rw [show Elem.para "FileHeader" (toString i ++ ". " ++ basename p) ::
        Elem.para "Italic" ("<i>Path: " ++ relpath base p ++ "</i>") ::
        Elem.spacer ::
        ((match c with
          | .ok ls => renderLines g 1 ls
          | .error m => [Elem.para "Normal" ("Error reading file: " ++ m)]) ++
          [Elem.pageBreak]) =
        (Elem.para "FileHeader" (toString i ++ ". " ++ basename p) ::
        Elem.para "Italic" ("<i>Path: " ++ relpath base p ++ "</i>") ::
        Elem.spacer ::
        (match c with
          | .ok ls => renderLines g 1 ls
          | .error m => [Elem.para "Normal" ("Error reading file: " ++ m)])) ++
          [Elem.pageBreak] from by simp]
    exact List.getLast?_concat _
  · intro g base i n p c hin h
    simp only [fileSection, if_neg hin, List.append_nil, List.mem_cons] at h
    rcases h with h | h | h | h
    · cases h
    · cases h
    · cases h
    · cases c with
      | ok ls => exact pageBreak_notMem_renderLines g ls 1 h
      | error m => simp at h
  · exact countP_pageBreak_sectionsFrom w files.length files 1 (by omega)

/-- Witness for C6 at a concrete failing file: its section keeps exactly
one heading and, not being the last file, still ends with the page
break. -/
theorem c6_document_sections_witness :
    (fileSection (fun _ => []) "/p" 1 2 "/p/a.js" (Except.error "boom")).filter isHeading =
      [headingOf (1, basename "/p/a.js")] ∧
    (fileSection (fun _ => []) "/p" 1 2 "/p/a.js" (Except.error "boom")).getLast? =
      some Elem.pageBreak := by
  constructor
  · exact ((c6_document_sections ⟨true, "/p", [], fun _ => Except.error "boom",
      fun _ _ => []⟩ []).2.2.1 (fun _ => []) "/p" 1 2 "/p/a.js" "boom").1
  · exact (c6_document_sections ⟨true, "/p", [], fun _ => Except.error "boom",
      fun _ _ => []⟩ []).2.2.2.2.1 (fun _ => []) "/p" 1 2 "/p/a.js"
      (Except.error "boom") (by decide)

theorem flatSnd_addToGroup (gs : List (String × List (Nat × String))) (d : String)
    (pr : Nat × String) :
    ((addToGroup gs d pr).flatMap Prod.snd).Perm ((gs.flatMap Prod.snd) ++ [pr]) := by
  induction gs with
  | nil => simp [addToGroup]
  | cons g rest ih =>
    simp only [addToGroup]
    split
    · simp only [List.flatMap_cons, List.append_assoc]
      exact List.Perm.append_left _ List.perm_append_comm
    · simp only [List.flatMap_cons, List.append_assoc]
      exact List.Perm.append_left _ ih

theorem flatSnd_buildGroups (base : String) :
    ∀ (files : List String) (gs : List (String × List (Nat × String))) (i : Nat),
      ((buildGroups base gs i files).flatMap Prod.snd).Perm
        ((gs.flatMap Prod.snd) ++ indexFrom i files) := by
  intro files
  induction files with
  | nil => intro gs i; simp [buildGroups, indexFrom]
  | cons p ps ih =>
    intro gs i
    simp only [buildGroups, indexFrom]
    refine (ih _ _).trans ?_
    refine ((flatSnd_addToGroup gs (relDir base p) (i, basename p)).append_right _).trans ?_
    rw [List.append_assoc]
    exact List.Perm.refl _

theorem map_fst_indexFrom : ∀ (l : List String) (i : Nat),
    (indexFrom i l).map Prod.fst = List.range' i l.length := by
  intro l
  induction l with
  | nil => intro i; rfl
  | cons p ps ih =>
    intro i
    simp [indexFrom, List.range'_succ, ih]

/-- C10: the ordinal indices the table of contents assigns to the files
are exactly 1..n, one per collected file in collector order — the
flattened TOC pairs are a permutation of the indexed file list — and the
number shown next to a file in the TOC equals the number displayed in
that file's section heading. -/
theorem c10_toc_indices (w : World) (files : List String) :
    ((dir_files w.base files).flatMap Prod.snd).Perm (indexFrom 1 files) ∧
      (((dir_files w.base files).flatMap Prod.snd).map Prod.fst).Perm
        (List.range' 1 files.length) ∧
      (sectionsFrom w files.length 1 files).filter isHeading =
        (indexFrom 1 files).map headingOf ∧
      (∀ pr ∈ (dir_files w.base files).flatMap Prod.snd,
        headingOf pr ∈ (sectionsFrom w files.length 1 files).filter isHeading) := by
  have h1 : ((dir_files w.base files).flatMap Prod.snd).Perm (indexFrom 1 files) := by
    have h0 := flatSnd_buildGroups w.base files [] 1
    simpa [dir_files] using h0
  refine ⟨h1, ?_, filter_isHeading_sectionsFrom w files.length files 1, ?_⟩
  · have h2 := h1.map Prod.fst
    rwa [map_fst_indexFrom] at h2
  · intro pr hpr
    rw [filter_isHeading_sectionsFrom]
    exact List.mem_map_of_mem headingOf (h1.mem_iff.mp hpr)

theorem mem_filesOf {f : String} : ∀ {es : List Entry}, f ∈ filesOf es ↔ Entry.file f ∈ es := by
  intro es
  induction es with
  | nil => simp [filesOf]
  | cons e es ih =>
    cases e with
    | file n =>
      simp only [filesOf, List.mem_cons, ih]
      constructor
      · rintro (rfl | h)
        · exact Or.inl rfl
        · exact Or.inr h
      · rintro (h | h)
        · exact Or.inl (Entry.file.injEq .. ▸ h ▸ rfl)
        · exact Or.inr h
    | dir n cs =>
      simp only [filesOf, List.mem_cons, ih]
      constructor
      · exact fun h => Or.inr h
      · rintro (h | h)
        · cases h
        · exact h

theorem mem_dirsOf {d : String} {cs : List Entry} :
    ∀ {es : List Entry}, (d, cs) ∈ dirsOf es ↔ Entry.dir d cs ∈ es := by
  intro es
  induction es with
  | nil => simp [dirsOf]
  | cons e es ih =>
    cases e with
    | file n =>
      simp only [dirsOf, List.mem_cons, ih]
      constructor
      · exact fun h => Or.inr h
      · rintro (h | h)
        · cases h
        · exact h
    | dir n children =>
      simp only [dirsOf, List.mem_cons, ih]
      constructor
      · rintro (h | h)
        · injection h with h1 h2
          subst h1; subst h2
          exact Or.inl rfl
        · exact Or.inr h
      · rintro (h | h)
        · injection h with h1 h2
          subst h1; subst h2
          exact Or.inl rfl
        · exact Or.inr h

theorem mem_walkCollect (p : String) :
    ∀ (N : Nat) (path : String) (es : List Entry), sizeOf es ≤ N →
      (p ∈ walkCollect path es ↔
        ∃ ds f, PathTo es ds f ∧ (∀ d ∈ ds, d ∉ excluded_dirs) ∧ admitFile f = true ∧
          p = joinPath path ds f) := by
  intro N
  induction N with
  | zero =>
    intro path es h
    exfalso
    cases es with
    | nil => simp at h
    | cons e es => simp at h
  | succ N ih =>
    intro path es hN
    rw [walkCollect]
    constructor
    · intro hp
      rw [List.mem_append] at hp
      rcases hp with hp | hp
      · rw [List.mem_map] at hp
        obtain ⟨f, hf, rfl⟩ := hp
        rw [List.mem_filter] at hf
        obtain ⟨hfm, hadm⟩ := hf
        rw [pySorted, List.mem_insertionSort] at hfm
        exact ⟨[], f, PathTo.here (mem_filesOf.mp hfm), by simp, hadm, rfl⟩
      · rw [List.mem_flatMap] at hp
        obtain ⟨⟨⟨d, cs⟩, hdm⟩, _, hpw⟩ := hp
        by_cases hd : d ∈ excluded_dirs
        · rw [if_pos hd] at hpw
          cases hpw
        · rw [if_neg hd] at hpw
          have hsz : sizeOf cs ≤ N := by
            have hlt := sizeOf_dirsOf_lt hdm
            simp only at hlt
            omega
          obtain ⟨ds, f, hpt, hex, hadm, rfl⟩ := (ih (joinOne path d) cs hsz).mp hpw
          refine ⟨d :: ds, f, PathTo.there (mem_dirsOf.mp hdm) hpt, ?_, hadm, rfl⟩
          intro x hx
          rcases List.mem_cons.mp hx with rfl | hx
          · exact hd
          · exact hex x hx
    · rintro ⟨ds, f, hpt, hex, hadm, rfl⟩
      cases hpt with
      | here hf =>
        apply List.mem_append_left
        rw [List.mem_map]
        refine ⟨f, ?_, rfl⟩
        rw [List.mem_filter]
        refine ⟨?_, hadm⟩
        rw [pySorted, List.mem_insertionSort]
        exact mem_filesOf.mpr hf
      | @there _ d cs ds' f hdm hpt' =>
        apply List.mem_append_right
        rw [List.mem_flatMap]
        refine ⟨⟨(d, cs), mem_dirsOf.mpr hdm⟩, List.mem_attach _ _, ?_⟩
        have hd : d ∉ excluded_dirs := hex d (List.mem_cons_self d ds')
        rw [if_neg hd]
        have hsz : sizeOf cs ≤ N := by
          have hlt := sizeOf_dirsOf_lt (mem_dirsOf.mpr hdm)
          simp only at hlt
          omega
        exact (ih (joinOne path d) cs hsz).mpr
          ⟨ds', f, hpt', fun x hx => hex x (List.mem_cons_of_mem d hx), hadm, rfl⟩

/-- C3: a path is returned by the recursive-walk collector iff it names a
file reachable from the root without passing through any denylisted
directory, whose name is not denylisted and whose extension is
allow-listed; and the returned list is sorted lexicographically by full
path. -/
theorem c3_get_nodejs_files (base : String) (es : List Entry) :
    (∀ p, p ∈ get_nodejs_files base es ↔
      ∃ ds f, PathTo es ds f ∧ (∀ d ∈ ds, d ∉ excluded_dirs) ∧
        f ∉ excluded_files ∧ extOf f ∈ file_extensions ∧ p = joinPath base ds f) ∧
      List.Sorted strLe (get_nodejs_files base es) := by
  constructor
  · intro p
    rw [get_nodejs_files, pySorted, List.mem_insertionSort,
      mem_walkCollect p (sizeOf es) base es (le_refl _)]
    constructor
    · rintro ⟨ds, f, h1, h2, h3, h4⟩
      simp only [admitFile, Bool.and_eq_true, decide_eq_true_eq] at h3
      exact ⟨ds, f, h1, h2, h3.1, h3.2, h4⟩
    · rintro ⟨ds, f, h1, h2, h3, h4, h5⟩
      refine ⟨ds, f, h1, h2, ?_, h5⟩
      simp only [admitFile, Bool.and_eq_true, decide_eq_true_eq]
      exact ⟨h3, h4⟩
  · exact List.sorted_insertionSort strLe _

theorem pyReplace_single (q : Char) (rep : List Char) :
    ∀ s : List Char, pyReplace s [q] rep =
      s.flatMap (fun c => if c = q then rep else [c]) := by
  intro s
  induction s with
  | nil =>
    rw [pyReplace]
    rfl
  | cons c cs ih =>
    rw [pyReplace]
    by_cases hc : c = q
    · subst hc
      rw [if_pos ⟨by rw [List.isPrefixOf_iff_prefix]; exact ⟨cs, rfl⟩, by simp⟩]
      simp [List.flatMap_cons, ih]
    · rw [if_neg ?hneg]
      case hneg =>
        rintro ⟨h1, -⟩
        rw [List.isPrefixOf_iff_prefix] at h1
        obtain ⟨t, ht⟩ := h1
        simp only [List.cons_append, List.nil_append] at ht
        injection ht with ht1 _
        exact hc ht1.symm
      simp [List.flatMap_cons, ih, hc]

theorem escChar_decomp (c : Char) :
    ((if c = '&' then "&amp;".data else [c]).flatMap fun x =>
      (if x = '<' then "&lt;".data else [x]).flatMap fun y =>
        (if y = '>' then "&gt;".data else [y]).flatMap fun z =>
          if z = ' ' then "&nbsp;".data else [z]) = escChar c := by
  by_cases h1 : c = '&'
  · subst h1; decide
  by_cases h2 : c = '<'
  · subst h2; decide
  by_cases h3 : c = '>'
  · subst h3; decide
  by_cases h4 : c = ' '
  · subst h4; decide
  simp [escChar, h1, h2, h3, h4]

theorem escape_value_data (v : String) :
    (escape_value v).data = v.data.flatMap escChar := by
  have ha : ("&" : String).data = ['&'] := by decide
  have hb : ("<" : String).data = ['<'] := by decide
  have hc : (">" : String).data = ['>'] := by decide
  have hd : (" " : String).data = [' '] := by decide
  show pyReplace (pyReplace (pyReplace (pyReplace v.data
      "&".data "&amp;".data) "<".data "&lt;".data) ">".data "&gt;".data)
      " ".data "&nbsp;".data = v.data.flatMap escChar
  rw [ha, hb, hc, hd, pyReplace_single, pyReplace_single, pyReplace_single,
    pyReplace_single, List.flatMap_assoc, List.flatMap_assoc, List.flatMap_assoc]
  exact congrArg _ (funext escChar_decomp)

theorem escChar_no_angle {c x : Char} (hx : x ∈ escChar c) : x ≠ '<' ∧ x ≠ '>' := by
  rw [escChar] at hx
  split at hx
  · exact (by decide : ∀ y ∈ ("&amp;".data : List Char), y ≠ '<' ∧ y ≠ '>') x hx
  · split at hx
    · exact (by decide : ∀ y ∈ ("&lt;".data : List Char), y ≠ '<' ∧ y ≠ '>') x hx
    · split at hx
      · exact (by decide : ∀ y ∈ ("&gt;".data : List Char), y ≠ '<' ∧ y ≠ '>') x hx
      · split at hx
        · exact (by decide : ∀ y ∈ ("&nbsp;".data : List Char), y ≠ '<' ∧ y ≠ '>') x hx
        · simp only [List.mem_singleton] at hx
          subst hx
          constructor <;> assumption

theorem escape_value_no_angle (v : String) :
    ∀ x ∈ (escape_value v).data, x ≠ '<' ∧ x ≠ '>' := by
  intro x hx
  rw [escape_value_data, List.mem_flatMap] at hx
  obtain ⟨c, -, hc⟩ := hx
  exact escChar_no_angle hc

theorem get_color_mem (t : TokenType) :
    get_color t = "#000000" ∨ get_color t ∈ token_colors.map Prod.snd := by
  rcases h : token_colors.lookup t with _ | c
  · rcases hf : token_colors.find? (fun pc => pc.1.isPrefixOf t) with _ | pc
    · left
      simp [get_color, h, hf]
    · right
      have hg : get_color t = pc.2 := by simp [get_color, h, hf]
      rw [hg]
      exact List.mem_map_of_mem Prod.snd (List.mem_of_find?_eq_some hf)
  · by_cases hc : c = "#000000"
    · subst hc
      rcases hf : token_colors.find? (fun pc => pc.1.isPrefixOf t) with _ | pc
      · left
        simp [get_color, h, hf]
      · right
        have hg : get_color t = pc.2 := by simp [get_color, h, hf]
        rw [hg]
        exact List.mem_map_of_mem Prod.snd (List.mem_of_find?_eq_some hf)
    · right
      have hg : get_color t = c := by simp [get_color, h, hc]
      rw [hg]
      rw [List.lookup_eq_some_iff] at h
      obtain ⟨l₁, l₂, hl, -⟩ := h
      exact List.mem_map_of_mem Prod.snd
        (hl ▸ List.mem_append_right _ (List.mem_cons_self _ _))

theorem get_color_no_gt (t : TokenType) : ∀ x ∈ (get_color t).data, ¬x = '>' := by
  rcases get_color_mem t with h | h
  · rw [h]; decide
  · simp only [token_colors, List.map_cons, List.map_nil, List.mem_cons,
      List.not_mem_nil, or_false] at h
    rcases h with h|h|h|h|h|h|h|h|h|h|h|h|h|h|h <;> (rw [h]; decide)

theorem strip_tags_append_no_lt :
    ∀ (xs rest : List Char), (∀ x ∈ xs, x ≠ '<') →
      strip_tags (xs ++ rest) = xs ++ strip_tags rest := by
  intro xs
  induction xs with
  | nil => intro rest _; rfl
  | cons x xs ih =>
    intro rest h
    rw [List.cons_append, strip_tags, if_neg (h x (List.mem_cons_self x xs)),
      ih rest (fun y hy => h y (List.mem_cons_of_mem x hy))]
    rfl

theorem dropWhile_reach :
    ∀ (body rest : List Char), (∀ x ∈ body, x ≠ '>') →
      (body ++ '>' :: rest).dropWhile (· ≠ '>') = '>' :: rest := by
  intro body
  induction body with
  | nil =>
    intro rest _
    rw [List.nil_append, List.dropWhile_cons_of_neg]
    simp
  | cons b bs ih =>
    intro rest h
    rw [List.cons_append, List.dropWhile_cons_of_pos]
    · exact ih rest (fun y hy => h y (List.mem_cons_of_mem b hy))
    · simpa using h b (List.mem_cons_self b bs)

theorem strip_tags_tag (body rest : List Char) (h : ∀ x ∈ body, x ≠ '>') :
    strip_tags ('<' :: (body ++ '>' :: rest)) = strip_tags rest := by
  rw [strip_tags, if_pos rfl, dropWhile_reach body rest h, List.drop_one, List.tail_cons]

theorem strip_tags_render (f : Fragment) (rest : List Char) :
    strip_tags ((render_fragment f).data ++ rest) =
      (escape_value f.value).data ++ strip_tags rest := by
  show strip_tags ('<' :: ((((("font color=\"".data ++ (get_color f.category).data) ++
      "\">".data) ++ (escape_value f.value).data) ++ "</font>".data) ++ rest)) = _
  rw [strip_tags, if_pos rfl]
  simp only [List.append_assoc]
  rw [List.dropWhile_append_of_pos (by decide :
      ∀ a ∈ ("font color=\"".data : List Char), (decide ¬(a = '>')) = true)]
  rw [List.dropWhile_append_of_pos
      (fun a ha => decide_eq_true (get_color_no_gt f.category a ha))]
  have hB : ∀ X : List Char, ("\">".data ++ X).dropWhile (fun x => decide ¬(x = '>')) =
      '>' :: X := by
    intro X
    show ('\"' :: '>' :: X).dropWhile (fun x => decide ¬(x = '>')) = '>' :: X
    rw [List.dropWhile_cons_of_pos (by decide), List.dropWhile_cons_of_neg (by decide)]
  rw [hB]
  show strip_tags ((escape_value f.value).data ++ ("</font>".data ++ rest)) = _
  rw [strip_tags_append_no_lt _ _
      (fun x hx => (escape_value_no_angle f.value x hx).1)]
  have hC : strip_tags ("</font>".data ++ rest) = strip_tags rest := by
    show strip_tags ('<' :: ("/font".data ++ '>' :: rest)) = _
    exact strip_tags_tag "/font".data rest (by decide)
  rw [hC]

theorem join_data : ∀ l : List String, (String.join l).data = (l.map String.data).flatten := by
  have gen : ∀ (l : List String) (a : String),
      (l.foldl (· ++ ·) a).data = a.data ++ (l.map String.data).flatten := by
    intro l
    induction l with
    | nil => intro a; simp
    | cons s l ih =>
      intro a
      rw [List.foldl_cons, ih (a ++ s)]
      simp [String.data_append, List.append_assoc]
  intro l
  exact gen l ""

theorem highlighted_code_data (f : Fragment) (ts : List Fragment) :
    (highlighted_code (f :: ts)).data =
      (render_fragment f).data ++ (highlighted_code ts).data := by
  rw [highlighted_code, highlighted_code, join_data, join_data, List.map_cons,
    List.map_cons, List.flatten_cons]

theorem strip_highlighted : ∀ (ts : List Fragment) (rest : List Char),
    strip_tags ((highlighted_code ts).data ++ rest) =
      (ts.flatMap (fun f => (escape_value f.value).data)) ++ strip_tags rest := by
  intro ts
  induction ts with
  | nil => intro rest; rfl
  | cons f ts ih =>
    intro rest
    rw [highlighted_code_data, List.append_assoc, strip_tags_render, ih,
      List.flatMap_cons, List.append_assoc]

theorem isPrefixOf_falsity {p l : List Char} (h : ∀ t, p ++ t ≠ l) :
    ¬(p.isPrefixOf l = true) := by
  intro hp
  rw [List.isPrefixOf_iff_prefix] at hp
  obtain ⟨t, ht⟩ := hp
  exact h t ht

theorem unescape_flatMap : ∀ s : List Char, unescape (s.flatMap escChar) = s := by
  intro s
  induction s with
  | nil => simp [unescape]
  | cons c cs ih =>
    rw [List.flatMap_cons]
    by_cases h1 : c = '&'
    · subst h1
      show unescape ('&' :: 'a' :: 'm' :: 'p' :: ';' :: cs.flatMap escChar) = _
      rw [unescape,
        if_pos (by rw [List.isPrefixOf_iff_prefix]; exact ⟨cs.flatMap escChar, rfl⟩)]
      show '&' :: unescape (cs.flatMap escChar) = _
      rw [ih]
    by_cases h2 : c = '<'
    · subst h2
      show unescape ('&' :: 'l' :: 't' :: ';' :: cs.flatMap escChar) = _
      rw [unescape,
        if_neg (isPrefixOf_falsity (fun t ht => by
          injection ht with hh ht2
          injection ht2 with hh2 ht3
          exact absurd hh2 (by decide))),
        if_pos (by rw [List.isPrefixOf_iff_prefix]; exact ⟨cs.flatMap escChar, rfl⟩)]
      show '<' :: unescape (cs.flatMap escChar) = _
      rw [ih]
    by_cases h3 : c = '>'
    · subst h3
      show unescape ('&' :: 'g' :: 't' :: ';' :: cs.flatMap escChar) = _
      rw [unescape,
        if_neg (isPrefixOf_falsity (fun t ht => by
          injection ht with hh ht2
          injection ht2 with hh2 ht3
          exact absurd hh2 (by decide))),
        if_neg (isPrefixOf_falsity (fun t ht => by
          injection ht with hh ht2
          injection ht2 with hh2 ht3
          exact absurd hh2 (by decide))),
        if_pos (by rw [List.isPrefixOf_iff_prefix]; exact ⟨cs.flatMap escChar, rfl⟩)]
      show '>' :: unescape (cs.flatMap escChar) = _
      rw [ih]
    by_cases h4 : c = ' '
    · subst h4
      show unescape ('&' :: 'n' :: 'b' :: 's' :: 'p' :: ';' :: cs.flatMap escChar) = _
      rw [unescape,
        if_neg (isPrefixOf_falsity (fun t ht => by
          injection ht with hh ht2
          injection ht2 with hh2 ht3
          exact absurd hh2 (by decide))),
        if_neg (isPrefixOf_falsity (fun t ht => by
          injection ht with hh ht2
          injection ht2 with hh2 ht3
          exact absurd hh2 (by decide))),
        if_neg (isPrefixOf_falsity (fun t ht => by
          injection ht with hh ht2
          injection ht2 with hh2 ht3
          exact absurd hh2 (by decide))),
        if_pos (by rw [List.isPrefixOf_iff_prefix]; exact ⟨cs.flatMap escChar, rfl⟩)]
      show ' ' :: unescape (cs.flatMap escChar) = _
      rw [ih]
    · have he : escChar c = [c] := by simp [escChar, h1, h2, h3, h4]
      rw [he]
      show unescape (c :: cs.flatMap escChar) = _
      rw [unescape,
        if_neg (isPrefixOf_falsity (fun t ht => by
          injection ht with hh ht2
          exact h1 hh.symm)),
        if_neg (isPrefixOf_falsity (fun t ht => by
          injection ht with hh ht2
          exact h1 hh.symm)),
        if_neg (isPrefixOf_falsity (fun t ht => by
          injection ht with hh ht2
          exact h1 hh.symm)),
        if_neg (isPrefixOf_falsity (fun t ht => by
          injection ht with hh ht2
          exact h1 hh.symm)),
        ih]

/-- C1: for every source line and every tokenization of it (the external
grammar engine's fragments, whose literal texts concatenate to the line),
stripping the markup tags from the styled code markup and reversing the
escape sequences — non-breaking-space encodings collapsing back to
spaces — reproduces the line exactly; the rendered line is that markup
prefixed by the gray line-number field and two spaces.  The escaping
chain replaces the ampersand first, so its own escape sequence is never
double-escaped. -/
theorem c1_render_roundtrip (L : String) (ts : List Fragment) (n : Nat)
    (h : concatValues ts = L) :
    unescapeStr (stripTagsStr (highlighted_code ts)) = L ∧
      syntax_highlight_line ts n =
        "<font color=\"#808080\">" ++ fmt4 n ++ "</font>" ++ "  " ++ highlighted_code ts := by
  subst h
  refine ⟨?_, rfl⟩
  show String.mk (unescape (strip_tags (highlighted_code ts).data)) = concatValues ts
  have h1 : strip_tags ((highlighted_code ts).data ++ []) =
      (ts.flatMap (fun f => (escape_value f.value).data)) ++ strip_tags [] :=
    strip_highlighted ts []
  rw [List.append_nil] at h1
  have h2 : strip_tags ([] : List Char) = [] := by rw [strip_tags]
  rw [h2, List.append_nil] at h1
  rw [h1]
  have h3 : ts.flatMap (fun f => (escape_value f.value).data) =
      (ts.flatMap (fun f => f.value.data)).flatMap escChar := by
    rw [List.flatMap_assoc]
    exact congrArg _ (funext (fun f => escape_value_data f.value))
  rw [h3, unescape_flatMap]
  rfl

/-- Witness for C1 at a concrete line containing all four escaped
characters. -/
theorem c1_render_roundtrip_witness :
    unescapeStr (stripTagsStr (highlighted_code
      [⟨["Keyword"], "a <b>"⟩, ⟨["Name"], " & c"⟩])) = "a <b> & c" :=
  (c1_render_roundtrip "a <b> & c" [⟨["Keyword"], "a <b>"⟩, ⟨["Name"], " & c"⟩] 1
    (by decide)).1

/-- Witness for C3 on a concrete tree: the allow-listed file at the root
is collected even though a denylisted directory with an allow-listed file
sits beside it. -/
theorem c3_get_nodejs_files_witness :
    "/p/b.js" ∈ get_nodejs_files "/p"
      [Entry.dir "node_modules" [Entry.file "a.js"], Entry.file "b.js"] :=
  ((c3_get_nodejs_files "/p"
      [Entry.dir "node_modules" [Entry.file "a.js"], Entry.file "b.js"]).1 "/p/b.js").mpr
    ⟨[], "b.js", PathTo.here (List.mem_cons_of_mem _ (List.mem_cons_self _ _)),
      fun d hd => absurd hd (List.not_mem_nil d), by decide, by decide, rfl⟩

/-- Witness for C10 on a concrete run: the TOC pair `(1, a.js)` has its
heading in the section stream. -/
theorem c10_toc_indices_witness :
    headingOf (1, basename "/p/a.js") ∈
      (sectionsFrom ⟨true, "/p", [], fun _ => Except.error "e", fun _ _ => []⟩ 1 1
        ["/p/a.js"]).filter isHeading :=
  (c10_toc_indices ⟨true, "/p", [], fun _ => Except.error "e", fun _ _ => []⟩
    ["/p/a.js"]).2.2.2 (1, basename "/p/a.js") (by decide)

end Code2PDF
